import Mathlib

/-!
Verification development for the DA (data-availability) replay layer of the
rooch repository, file crates/rooch/src/commands/da/commands/mod.rs.

The embedding is shallow: machine integers (u64, u128, usize) are modelled as
Nat with explicit bounds where overflow matters; fallible operations return
Except or Option; the external execution store is an oracle function from a
transaction hash to a Bool; file contents are passed in as lists of lines.
Rust panics (checked arithmetic underflow, slice-index out of bounds) are
modelled by an explicit result constructor.
-/

set_option maxHeartbeats 1000000

namespace RoochDA

/-- Record of the order-hash-block index: struct TxOrderHashBlock
{ tx_order: u64, tx_hash: H256, block_number: u128 }.  The 256-bit hash is
modelled as a Nat. -/
structure TxOrderHashBlock where
  tx_order : Nat
  tx_hash : Nat
  block_number : Nat
  deriving DecidableEq, Repr

instance : Inhabited TxOrderHashBlock := ⟨⟨0, 0, 0⟩⟩

/-- The while-loop of TxOrderHashBlockGetter::find_last_executed:
narrows [left, right] with mid = (left + right) / 2, moving left past mid when
the record at mid is executed.  Returns the converged index paired with the
number of queries made to the execution store (the cnt accumulator). -/
def fleLoop (recs : List TxOrderHashBlock) (exec : Nat → Bool)
    (left right cnt : Nat) : Nat × Nat :=
  if h : left < right then
    let mid := (left + right) / 2
    if exec ((recs.getD mid default).tx_hash) then
      fleLoop recs exec (mid + 1) right (cnt + 1)
    else
      fleLoop recs exec left mid (cnt + 1)
  else (left, cnt)
termination_by right - left
decreasing_by
  · omega
  · omega

/-- TxOrderHashBlockGetter::find_last_executed.  The execution store is the
oracle exec (keyed by tx_hash); the second component counts how many times the
store was queried.  Mirrors the source: empty list short-circuits to none,
otherwise binary search on [0, len-1] followed by the converged-index fixup. -/
def find_last_executed (recs : List TxOrderHashBlock) (exec : Nat → Bool) :
    Option TxOrderHashBlock × Nat :=
  if recs.isEmpty then (none, 0)
  else
    let p := fleLoop recs exec 0 (recs.length - 1) 0
    let left := p.1
    let lastExecuted := exec ((recs.getD left default).tx_hash)
    if left == 0 && !lastExecuted then (none, p.2 + 1)
    else if !lastExecuted then (some (recs.getD (left - 1) default), p.2 + 1)
    else (some (recs.getD left default), p.2 + 1)

/-- The loop of Rust std slice::binary_search_by (specialised to the
comparator |x| x.tx_order.cmp(&key) used by TxOrderHashBlockGetter::slice):
mid = left + size / 2 with size = right - left; Less moves left past mid,
Greater moves right to mid, Equal returns Ok(mid); Err(left) on exhaustion. -/
def bsLoop (recs : List TxOrderHashBlock) (key left right : Nat) :
    Except Nat Nat :=
  if h : left < right then
    let mid := left + (right - left) / 2
    let a := (recs.getD mid default).tx_order
    if a < key then bsLoop recs key (mid + 1) right
    else if key < a then bsLoop recs key left mid
    else .ok mid
  else .error left
termination_by right - left
decreasing_by
  · omega
  · omega

/-- self.tx_order_hash_blocks.binary_search_by(|x| x.tx_order.cmp(&start)). -/
def binary_search_by (recs : List TxOrderHashBlock) (key : Nat) :
    Except Nat Nat :=
  bsLoop recs key 0 recs.length

/-- Outcome of TxOrderHashBlockGetter::slice: Ok(vec), the "start_tx_order
not found" error, or a Rust panic (arithmetic-overflow check on the u64
subtraction, or slice indexing out of bounds). -/
inductive SliceResult where
  | ok (l : List TxOrderHashBlock)
  | err (msg : String)
  | abort
  deriving DecidableEq, Repr

/-- TxOrderHashBlockGetter::slice.  Binary-searches for start_tx_order; if
absent, errors.  Otherwise end_idx = start_idx + (end_tx_order -
start_tx_order) — the u64 subtraction is checked, so end < start aborts — and
the records v[start_idx .. end_idx + 1] are returned, aborting when the upper
bound exceeds the length. -/
def slice (recs : List TxOrderHashBlock) (start_tx_order end_tx_order : Nat) :
    SliceResult :=
  match binary_search_by recs start_tx_order with
  | .error _ => .err "start_tx_order not found"
  | .ok start_idx =>
    if end_tx_order < start_tx_order then .abort
    else
      let end_idx := start_idx + (end_tx_order - start_tx_order)
      if end_idx + 1 ≤ recs.length then
        .ok ((recs.drop start_idx).take (end_idx + 1 - start_idx))
      else .abort

/-- Char for a decimal digit d < 10 (codepoint 48 + d). -/
def digitChar (d : Nat) : Char := Char.ofNat (48 + d)

/-- Decimal rendering of a Nat, most significant digit first; models Rust's
Display for u64 / u128 as used by "{}" in Display for TxOrderHashBlock. -/
def natToDec (n : Nat) : List Char :=
  if _h : n < 10 then [digitChar n]
  else natToDec (n / 10) ++ [digitChar (n % 10)]
termination_by n
decreasing_by omega

/-- Value of a decimal digit char; none for non-digits. -/
def decDigitVal (c : Char) : Option Nat :=
  if 48 ≤ c.toNat ∧ c.toNat ≤ 57 then some (c.toNat - 48) else none

/-- Accumulating decimal parse; fails on the first non-digit. -/
def parseDecAux : List Char → Nat → Option Nat
  | [], a => some a
  | c :: cs, a =>
    match decDigitVal c with
    | none => none
    | some d => parseDecAux cs (a * 10 + d)

/-- str::parse::<u64> / ::<u128> modelled over Nat with bound 2 ^ w: an
optional leading '+', then one or more decimal digits, overflow rejected
(a final bound check is equivalent to Rust's per-step overflow check since
appending digits never decreases the accumulated value). -/
def parseUInt (w : Nat) (cs : List Char) : Option Nat :=
  let body := match cs with
    | c :: rest => if c = '+' then rest else cs
    | [] => cs
  match body with
  | [] => none
  | _ =>
    match parseDecAux body 0 with
    | none => none
    | some v => if v < 2 ^ w then some v else none

/-- Char for a hex nibble d < 16, lowercase. -/
def hexDigitChar (d : Nat) : Char :=
  if d < 10 then Char.ofNat (48 + d) else Char.ofNat (87 + d)

/-- Value of a hex digit char (either case); none otherwise. -/
def hexDigitVal (c : Char) : Option Nat :=
  if 48 ≤ c.toNat ∧ c.toNat ≤ 57 then some (c.toNat - 48)
  else if 97 ≤ c.toNat ∧ c.toNat ≤ 102 then some (c.toNat - 87)
  else if 65 ≤ c.toNat ∧ c.toNat ≤ 70 then some (c.toNat - 55)
  else none

/-- Fixed-width big-endian hex rendering: w nibbles, leading zeros kept. -/
def natToHex : Nat → Nat → List Char
  | 0, _ => []
  | w + 1, n => natToHex w (n / 16) ++ [hexDigitChar (n % 16)]

/-- Accumulating hex parse; fails on the first non-hex-digit. -/
def parseHexAux : List Char → Nat → Option Nat
  | [], a => some a
  | c :: cs, a =>
    match hexDigitVal c with
    | none => none
    | some d => parseHexAux cs (a * 16 + d)

/-- Modelled from the spec: the canonical textual form of a 256-bit hash
(moveos_types::h256::H256, whose code is not under src/), as produced by the
"{:?}" Debug format in Display for TxOrderHashBlock — "0x" followed by 64
hex nibbles; the spec requires only that this form round-trips losslessly. -/
def h256ToChars (h : Nat) : List Char := '0' :: 'x' :: natToHex 64 h

/-- Modelled from the spec: H256::from_str (moveos_types, not under src/),
the lossless inverse of the canonical textual form: an optional 0x prefix
followed by exactly 64 hex nibbles. -/
def h256FromChars (cs : List Char) : Option Nat :=
  let body := match cs with
    | c0 :: c1 :: rest => if c0 = '0' ∧ c1 = 'x' then rest else cs
    | _ => cs
  if body.length = 64 then parseHexAux body 0 else none

/-- s.split(':').collect::<Vec<&str>>() on a list of chars. -/
def splitCols : List Char → List (List Char)
  | [] => [[]]
  | c :: cs =>
    if c = ':' then [] :: splitCols cs
    else
      match splitCols cs with
      | [] => [[c]]
      | f :: rest => (c :: f) :: rest

/-- impl Display for TxOrderHashBlock: write!(f, "{}:{:?}:{}", tx_order,
tx_hash, block_number). -/
def thbToChars (t : TxOrderHashBlock) : List Char :=
  natToDec t.tx_order ++
    ':' :: (h256ToChars t.tx_hash ++ ':' :: natToDec t.block_number)

/-- impl FromStr for TxOrderHashBlock: split on ':', require exactly 3
parts, then parse u64 tx_order, H256 tx_hash, u128 block_number. -/
def thbFromChars (cs : List Char) : Option TxOrderHashBlock :=
  match splitCols cs with
  | [p0, p1, p2] =>
    match parseUInt 64 p0, h256FromChars p1, parseUInt 128 p2 with
    | some o, some h, some b => some ⟨o, h, b⟩
    | _, _, _ => none
  | _ => none

/-- The loop of TxOrderHashBlockGetter::load_from_file over the lines of the
index file: every line must parse as a TxOrderHashBlock or the entire load
fails; records are kept in file order.  File IO (BufReader::lines) is
abstracted to the list of lines. -/
def load_from_file : List (List Char) → Option (List TxOrderHashBlock)
  | [] => some []
  | l :: ls =>
    match thbFromChars l with
    | none => none
    | some t =>
      match load_from_file ls with
      | none => none
      | some ts => some (t :: ts)

/-- HashMap::get modelled on an association list (HashMap<u128, Vec<u64>>). -/
def hashMapGet (m : List (Nat × List Nat)) (k : Nat) : Option (List Nat) :=
  match m with
  | [] => none
  | (k', v) :: rest => if k' = k then some v else hashMapGet rest k

/-- LedgerTxGetter: the chunks map plus the discovered chunk-id range. -/
structure LedgerTxGetter where
  chunks : List (Nat × List Nat)
  min_chunk_id : Nat
  max_chunk_id : Nat

/-- LedgerTxGetter::load_ledger_tx_list.  get_tx_list_from_chunk performs
file IO and codec work that is out of scope, so it is passed as an oracle
from (chunk_id, segment numbers) to a transaction list (opaque Nats) or an
error.  An unknown chunk errors when must_has, else yields Ok(None). -/
def load_ledger_tx_list (g : LedgerTxGetter)
    (getTx : Nat → List Nat → Except String (List Nat))
    (chunk_id : Nat) (must_has : Bool) : Except String (Option (List Nat)) :=
  match hashMapGet g.chunks chunk_id with
  | none =>
    if must_has then .error ("No segment found in chunk " ++ toString chunk_id)
    else .ok none
  | some segs =>
    match getTx chunk_id segs with
    | .error e => .error e
    | .ok l => .ok (some l)

/-- One directory entry as seen by collect_chunks.  Modelled from the spec:
the SegmentID filename grammar (rooch_types::da::segment, not under src/) is
an external contract, so an entry carries its parse result directly — none
when the filename does not parse as a SegmentID (such entries are skipped). -/
structure DirEntry where
  is_file : Bool
  seg_id : Option (Nat × Nat)
  deriving DecidableEq, Repr

/-- chunks.entry(chunk_id).or_default().push(segment_number) on the
association-list model: append to the existing key or add a new binding. -/
def chunksInsert (m : List (Nat × List Nat)) (k v : Nat) :
    List (Nat × List Nat) :=
  match m with
  | [] => [(k, [v])]
  | (k', vs) :: rest =>
    if k' = k then (k', vs ++ [v]) :: rest
    else (k', vs) :: chunksInsert rest k v

/-- The directory-scan loop of collect_chunks, carrying the accumulators
chunks / min_chunk_id / max_chunk_id. -/
def collectLoop : List DirEntry → List (Nat × List Nat) → Nat → Nat →
    List (Nat × List Nat) × Nat × Nat
  | [], m, mn, mx => (m, mn, mx)
  | e :: es, m, mn, mx =>
    if e.is_file then
      match e.seg_id with
      | some (cid, sn) =>
        collectLoop es (chunksInsert m cid sn)
          (if cid < mn then cid else mn) (if mx < cid then cid else mx)
      | none => collectLoop es m mn mx
    else collectLoop es m mn mx

/-- collect_chunks: scan the directory entries, group parsed segment ids by
chunk, and fail when no segment file was found.  min_chunk_id starts at
u128::MAX = 2 ^ 128 - 1 and max_chunk_id at 0, as in the source. -/
def collect_chunks (entries : List DirEntry) :
    Except String (List (Nat × List Nat) × Nat × Nat) :=
  let r := collectLoop entries [] (2 ^ 128 - 1) 0
  if r.1.isEmpty then .error "No segment found"
  else .ok r

/-- The chunk ids of the entries that are files and parse as a SegmentID, in
scan order. -/
def parsedChunkIds (entries : List DirEntry) : List Nat :=
  entries.filterMap
    (fun e => if e.is_file then e.seg_id.map (fun p => p.1) else none)

/-! Theorems -/

theorem getD_mem_of_lt (recs : List TxOrderHashBlock) (n : Nat)
    (h : n < recs.length) : recs.getD n default ∈ recs := by
  rw [List.getD_eq_getElem recs default h]
  exact List.getElem_mem h

theorem bsLoop_not_found (recs : List TxOrderHashBlock) (key : Nat)
    (habs : ∀ r ∈ recs, r.tx_order ≠ key) :
    ∀ d left right, right - left ≤ d → right ≤ recs.length →
      ∃ j, bsLoop recs key left right = .error j := by
  intro d
  induction d with
  | zero =>
    intro left right h1 h2
    rw [bsLoop, dif_neg (by omega)]
    exact ⟨left, rfl⟩
  | succ d ih =>
    intro left right h1 h2
    by_cases hlr : left < right
    · rw [bsLoop, dif_pos hlr]
      dsimp only
      have hane :
          (recs.getD (left + (right - left) / 2) default).tx_order ≠ key :=
        habs _ (getD_mem_of_lt recs _ (by omega))
      rcases Nat.lt_trichotomy
          ((recs.getD (left + (right - left) / 2) default).tx_order) key with
        hlt | heq | hgt
      · rw [if_pos hlt]
        exact ih (left + (right - left) / 2 + 1) right (by omega) h2
      · exact absurd heq hane
      · rw [if_neg (by omega), if_pos hgt]
        exact ih left (left + (right - left) / 2) (by omega) (by omega)
    · rw [bsLoop, dif_neg hlr]
      exact ⟨left, rfl⟩

/-- C4: slice with a start_tx_order that is the tx_order of no record of the
index returns the "start_tx_order not found" error, never a nearest-match
slice, whatever the end_tx_order. -/
theorem slice_start_absent (recs : List TxOrderHashBlock)
    (start_tx_order end_tx_order : Nat)
    (habs : ∀ r ∈ recs, r.tx_order ≠ start_tx_order) :
    slice recs start_tx_order end_tx_order =
      SliceResult.err "start_tx_order not found" := by
  obtain ⟨j, hj⟩ :=
    bsLoop_not_found recs start_tx_order habs recs.length 0 recs.length
      (by omega) (le_refl _)
  simp [slice, binary_search_by, hj]

/-- A small concrete index with tx_orders 0, 1, 2. -/
def recsW : List TxOrderHashBlock := [⟨0, 10, 1⟩, ⟨1, 11, 1⟩, ⟨2, 12, 1⟩]

/-- Witness for slice_start_absent: key 5 is absent from recsW. -/
theorem slice_start_absent_witness :
    slice recsW 5 6 = SliceResult.err "start_tx_order not found" :=
  slice_start_absent recsW 5 6 (by decide)

/-- C3: when binary search finds start_tx_order at start_idx, slice returns
Ok exactly under the precondition end_tx_order ≥ start_tx_order and
start_idx + (end_tx_order - start_tx_order) within bounds; outside it the
call aborts (Rust panic): end < start trips the checked u64 subtraction, and
a too-large end makes the slice indexing go out of bounds — neither case
returns an empty result or an error. -/
theorem slice_totality (recs : List TxOrderHashBlock) (s e i : Nat)
    (hfound : binary_search_by recs s = Except.ok i) :
    (s ≤ e → i + (e - s) + 1 ≤ recs.length →
      slice recs s e =
        SliceResult.ok ((recs.drop i).take (i + (e - s) + 1 - i))) ∧
    (e < s → slice recs s e = SliceResult.abort) ∧
    (s ≤ e → recs.length < i + (e - s) + 1 →
      slice recs s e = SliceResult.abort) := by
  refine ⟨?_, ?_, ?_⟩
  · intro h1 h2
    simp only [slice, hfound]
    rw [if_neg (by omega)]
    rw [if_pos (by omega)]
  · intro h1
    simp only [slice, hfound]
    rw [if_pos h1]
  · intro h1 h2
    simp only [slice, hfound]
    rw [if_neg (by omega)]
    rw [if_neg (by omega)]

/-- Witness for slice_totality: key 1 sits at index 1 of recsW and the
in-bounds request (1, 2) yields Ok. -/
theorem slice_totality_witness :
    slice recsW 1 2 = SliceResult.ok ((recsW.drop 1).take (1 + (2 - 1) + 1 - 1)) :=
  (slice_totality recsW 1 2 1 (by simp [binary_search_by, bsLoop, recsW])).1
    (by omega) (by decide)

/-- C6: find_last_executed on an empty index returns none and performs zero
queries to the execution store, for every execution store. -/
theorem find_last_executed_empty (exec : Nat → Bool) :
    find_last_executed [] exec = (none, 0) := rfl

/-- C8: load_ledger_tx_list on a chunk id absent from the chunks map fails
with the "No segment found in chunk .." error when must_has is true, and
returns Ok(None) when must_has is false, for every loading oracle. -/
theorem load_ledger_tx_list_absent (g : LedgerTxGetter)
    (getTx : Nat → List Nat → Except String (List Nat)) (chunk_id : Nat)
    (habs : hashMapGet g.chunks chunk_id = none) :
    load_ledger_tx_list g getTx chunk_id true =
      Except.error ("No segment found in chunk " ++ toString chunk_id) ∧
    load_ledger_tx_list g getTx chunk_id false = Except.ok none := by
  constructor <;> simp [load_ledger_tx_list, habs]

/-- Witness for load_ledger_tx_list_absent: empty chunks map, chunk id 5. -/
theorem load_ledger_tx_list_absent_witness :
    load_ledger_tx_list ⟨[], 0, 0⟩ (fun _ _ => Except.ok []) 5 false =
      Except.ok none :=
  (load_ledger_tx_list_absent ⟨[], 0, 0⟩ (fun _ _ => Except.ok []) 5 rfl).2

theorem chunksInsert_ne_nil (m : List (Nat × List Nat)) (k v : Nat) :
    chunksInsert m k v ≠ [] := by
  match m with
  | [] => simp [chunksInsert]
  | (k', vs) :: rest =>
    simp only [chunksInsert]
    split <;> simp

theorem collectLoop_skip (es : List DirEntry) :
    ∀ m mn mx, (∀ e ∈ es, ¬(e.is_file = true ∧ e.seg_id.isSome = true)) →
      collectLoop es m mn mx = (m, mn, mx) := by
  induction es with
  | nil => intro m mn mx _; rfl
  | cons e rest ih =>
    intro m mn mx h
    have he := h e (List.mem_cons_self e rest)
    have hrest : ∀ x ∈ rest, ¬(x.is_file = true ∧ x.seg_id.isSome = true) :=
      fun x hx => h x (List.mem_cons_of_mem e hx)
    cases hf : e.is_file with
    | false =>
      simp only [collectLoop, hf, Bool.false_eq_true, if_false]
      exact ih m mn mx hrest
    | true =>
      cases hs : e.seg_id with
      | none =>
        simp only [collectLoop, hf, if_true]
        rw [hs]
        exact ih m mn mx hrest
      | some p =>
        exfalso
        exact he ⟨hf, by rw [hs]; rfl⟩

theorem collectLoop_map_ne_nil (es : List DirEntry) :
    ∀ m mn mx, m ≠ [] → (collectLoop es m mn mx).1 ≠ [] := by
  induction es with
  | nil => intro m mn mx h; exact h
  | cons e rest ih =>
    intro m mn mx h
    cases hf : e.is_file with
    | true =>
      cases hs : e.seg_id with
      | some p =>
        obtain ⟨cid, sn⟩ := p
        simp only [collectLoop, hf, if_true]
        rw [hs]
        exact ih _ _ _ (chunksInsert_ne_nil m cid sn)
      | none =>
        simp only [collectLoop, hf, if_true]
        rw [hs]
        exact ih _ _ _ h
    | false =>
      simp only [collectLoop, hf, Bool.false_eq_true, if_false]
      exact ih _ _ _ h

theorem collectLoop_parseable_ne_nil (es : List DirEntry) :
    ∀ m mn mx, (∃ e ∈ es, e.is_file = true ∧ e.seg_id.isSome = true) →
      (collectLoop es m mn mx).1 ≠ [] := by
  induction es with
  | nil =>
    intro m mn mx h
    obtain ⟨e, he, _⟩ := h
    exact absurd he (List.not_mem_nil e)
  | cons e rest ih =>
    intro m mn mx h
    cases hf : e.is_file with
    | true =>
      cases hs : e.seg_id with
      | some p =>
        obtain ⟨cid, sn⟩ := p
        simp only [collectLoop, hf, if_true]
        rw [hs]
        exact collectLoop_map_ne_nil rest _ _ _ (chunksInsert_ne_nil m cid sn)
      | none =>
        simp only [collectLoop, hf, if_true]
        rw [hs]
        apply ih
        obtain ⟨x, hx, hx2⟩ := h
        rcases List.mem_cons.mp hx with rfl | hxr
        · rw [hs] at hx2
          exact absurd hx2.2 (by simp)
        · exact ⟨x, hxr, hx2⟩
    | false =>
      simp only [collectLoop, hf, Bool.false_eq_true, if_false]
      apply ih
      obtain ⟨x, hx, hx2⟩ := h
      rcases List.mem_cons.mp hx with rfl | hxr
      · rw [hf] at hx2
        exact absurd hx2.1 (by simp)
      · exact ⟨x, hxr, hx2⟩

/-- C9: collect_chunks fails with the "no segment found" error exactly when
no directory entry is a file whose name parses as a SegmentID (an empty or
all-unparseable directory); unparseable filenames and non-file entries are
skipped silently and never cause an error on their own — a single parseable
segment file makes the scan succeed. -/
theorem collect_chunks_no_segment (entries : List DirEntry) :
    ((∀ e ∈ entries, ¬(e.is_file = true ∧ e.seg_id.isSome = true)) →
      collect_chunks entries = Except.error "No segment found") ∧
    ((∃ e ∈ entries, e.is_file = true ∧ e.seg_id.isSome = true) →
      ∃ res, collect_chunks entries = Except.ok res) := by
  constructor
  · intro h
    simp [collect_chunks, collectLoop_skip entries [] _ _ h]
  · intro h
    have hne := collectLoop_parseable_ne_nil entries [] (2 ^ 128 - 1) 0 h
    refine ⟨collectLoop entries [] (2 ^ 128 - 1) 0, ?_⟩
    simp only [collect_chunks]
    rw [if_neg (by simpa [List.isEmpty_iff] using hne)]

/-- Witness for collect_chunks_no_segment: a directory holding a single
unparseable file fails; one holding one parseable file succeeds. -/
theorem collect_chunks_no_segment_witness :
    collect_chunks [⟨true, none⟩] = Except.error "No segment found" ∧
    ∃ res, collect_chunks [⟨true, none⟩, ⟨true, some (3, 0)⟩] = Except.ok res :=
  ⟨(collect_chunks_no_segment [⟨true, none⟩]).1 (by decide),
   (collect_chunks_no_segment [⟨true, none⟩, ⟨true, some (3, 0)⟩]).2
     ⟨⟨true, some (3, 0)⟩, by decide⟩⟩

/-- Running minimum as folded by the scan loop. -/
def foldMin (ids : List Nat) (a : Nat) : Nat :=
  ids.foldl (fun acc c => if c < acc then c else acc) a

/-- Running maximum as folded by the scan loop. -/
def foldMax (ids : List Nat) (a : Nat) : Nat :=
  ids.foldl (fun acc c => if acc < c then c else acc) a

theorem foldMin_cons (x : Nat) (ids : List Nat) (a : Nat) :
    foldMin (x :: ids) a = foldMin ids (if x < a then x else a) := by
  simp [foldMin]

theorem foldMax_cons (x : Nat) (ids : List Nat) (a : Nat) :
    foldMax (x :: ids) a = foldMax ids (if a < x then x else a) := by
  simp [foldMax]

theorem foldMin_spec (ids : List Nat) :
    ∀ a, foldMin ids a ≤ a ∧ (foldMin ids a = a ∨ foldMin ids a ∈ ids) ∧
      ∀ c ∈ ids, foldMin ids a ≤ c := by
  induction ids with
  | nil =>
    intro a
    refine ⟨le_refl a, Or.inl rfl, ?_⟩
    intro c hc
    exact absurd hc (List.not_mem_nil c)
  | cons x rest ih =>
    intro a
    obtain ⟨h1, h2, h3⟩ := ih (if x < a then x else a)
    have haa : (if x < a then x else a) ≤ a ∧ (if x < a then x else a) ≤ x ∧
        ((if x < a then x else a) = x ∨ (if x < a then x else a) = a) := by
      split <;> omega
    refine ⟨?_, ?_, ?_⟩
    · rw [foldMin_cons]
      exact le_trans h1 haa.1
    · rw [foldMin_cons]
      rcases h2 with h | h
      · rcases haa.2.2 with hx | ha2
        · right
          rw [h, hx]
          exact List.mem_cons_self x rest
        · left
          rw [h, ha2]
      · right
        exact List.mem_cons_of_mem x h
    · intro c hc
      rw [foldMin_cons]
      rcases List.mem_cons.mp hc with rfl | hc2
      · exact le_trans h1 haa.2.1
      · exact h3 c hc2

theorem foldMax_spec (ids : List Nat) :
    ∀ a, a ≤ foldMax ids a ∧ (foldMax ids a = a ∨ foldMax ids a ∈ ids) ∧
      ∀ c ∈ ids, c ≤ foldMax ids a := by
  induction ids with
  | nil =>
    intro a
    refine ⟨le_refl a, Or.inl rfl, ?_⟩
    intro c hc
    exact absurd hc (List.not_mem_nil c)
  | cons x rest ih =>
    intro a
    obtain ⟨h1, h2, h3⟩ := ih (if a < x then x else a)
    have haa : a ≤ (if a < x then x else a) ∧ x ≤ (if a < x then x else a) ∧
        ((if a < x then x else a) = x ∨ (if a < x then x else a) = a) := by
      split <;> omega
    refine ⟨?_, ?_, ?_⟩
    · rw [foldMax_cons]
      exact le_trans haa.1 h1
    · rw [foldMax_cons]
      rcases h2 with h | h
      · rcases haa.2.2 with hx | ha2
        · right
          rw [h, hx]
          exact List.mem_cons_self x rest
        · left
          rw [h, ha2]
      · right
        exact List.mem_cons_of_mem x h
    · intro c hc
      rw [foldMax_cons]
      rcases List.mem_cons.mp hc with rfl | hc2
      · exact le_trans haa.2.1 h1
      · exact h3 c hc2

theorem collectLoop_minmax (es : List DirEntry) :
    ∀ m mn mx,
      (collectLoop es m mn mx).2.1 = foldMin (parsedChunkIds es) mn ∧
      (collectLoop es m mn mx).2.2 = foldMax (parsedChunkIds es) mx := by
  induction es with
  | nil => intro m mn mx; exact ⟨rfl, rfl⟩
  | cons e rest ih =>
    intro m mn mx
    cases hf : e.is_file with
    | true =>
      cases hs : e.seg_id with
      | some p =>
        obtain ⟨cid, sn⟩ := p
        have hp : parsedChunkIds (e :: rest) = cid :: parsedChunkIds rest := by
          simp [parsedChunkIds, List.filterMap_cons, hf, hs]
        have hl : collectLoop (e :: rest) m mn mx =
            collectLoop rest (chunksInsert m cid sn)
              (if cid < mn then cid else mn) (if mx < cid then cid else mx) := by
          simp only [collectLoop, hf, if_true]
          rw [hs]
        rw [hl, hp, foldMin_cons, foldMax_cons]
        exact ih _ _ _
      | none =>
        have hp : parsedChunkIds (e :: rest) = parsedChunkIds rest := by
          simp [parsedChunkIds, List.filterMap_cons, hf, hs]
        have hl : collectLoop (e :: rest) m mn mx = collectLoop rest m mn mx := by
          simp only [collectLoop, hf, if_true]
          rw [hs]
        rw [hl, hp]
        exact ih _ _ _
    | false =>
      have hp : parsedChunkIds (e :: rest) = parsedChunkIds rest := by
        simp [parsedChunkIds, List.filterMap_cons, hf]
      have hl : collectLoop (e :: rest) m mn mx = collectLoop rest m mn mx := by
        simp only [collectLoop, hf, Bool.false_eq_true, if_false]
      rw [hl, hp]
      exact ih _ _ _

/-- Example directory: files named after the chunk-segment pairs 1-0, 1-1,
2-0. -/
def entriesW : List DirEntry :=
  [⟨true, some (1, 0)⟩, ⟨true, some (1, 1)⟩, ⟨true, some (2, 0)⟩]

/-- The (chunk_id, segment_number) pairs of the entries that are files and
parse as a SegmentID, in scan order. -/
def parsedSegIds (entries : List DirEntry) : List (Nat × Nat) :=
  entries.filterMap (fun e => if e.is_file then e.seg_id else none)

/-- The chunks map built by folding chunksInsert over a list of parsed
segment ids. -/
def foldInsert (ps : List (Nat × Nat)) (m : List (Nat × List Nat)) :
    List (Nat × List Nat) :=
  ps.foldl (fun acc p => chunksInsert acc p.1 p.2) m

theorem parsedChunkIds_eq_map (entries : List DirEntry) :
    parsedChunkIds entries = (parsedSegIds entries).map Prod.fst := by
  rw [parsedChunkIds, parsedSegIds, List.map_filterMap]
  congr 1
  funext e
  by_cases hf : e.is_file = true <;> simp [hf]

theorem collectLoop_map_eq (es : List DirEntry) :
    ∀ m mn mx, (collectLoop es m mn mx).1 = foldInsert (parsedSegIds es) m := by
  induction es with
  | nil => intro m mn mx; rfl
  | cons e rest ih =>
    intro m mn mx
    cases hf : e.is_file with
    | true =>
      cases hs : e.seg_id with
      | some p =>
        obtain ⟨cid, sn⟩ := p
        have hp : parsedSegIds (e :: rest) = (cid, sn) :: parsedSegIds rest := by
          simp [parsedSegIds, List.filterMap_cons, hf, hs]
        have hl : collectLoop (e :: rest) m mn mx =
            collectLoop rest (chunksInsert m cid sn)
              (if cid < mn then cid else mn) (if mx < cid then cid else mx) := by
          simp only [collectLoop, hf, if_true]
          rw [hs]
        rw [hl, hp, ih]
        rfl
      | none =>
        have hp : parsedSegIds (e :: rest) = parsedSegIds rest := by
          simp [parsedSegIds, List.filterMap_cons, hf, hs]
        have hl : collectLoop (e :: rest) m mn mx = collectLoop rest m mn mx := by
          simp only [collectLoop, hf, if_true]
          rw [hs]
        rw [hl, hp, ih]
    | false =>
      have hp : parsedSegIds (e :: rest) = parsedSegIds rest := by
        simp [parsedSegIds, List.filterMap_cons, hf]
      have hl : collectLoop (e :: rest) m mn mx = collectLoop rest m mn mx := by
        simp only [collectLoop, hf, Bool.false_eq_true, if_false]
      rw [hl, hp, ih]

theorem hashMapGet_chunksInsert_self (m : List (Nat × List Nat)) (k v : Nat) :
    hashMapGet (chunksInsert m k v) k =
      some ((hashMapGet m k).getD [] ++ [v]) := by
  induction m with
  | nil => simp [chunksInsert, hashMapGet]
  | cons p rest ih =>
    obtain ⟨k0, vs⟩ := p
    by_cases hk : k0 = k
    · subst hk
      simp [chunksInsert, hashMapGet]
    · simp [chunksInsert, hashMapGet, hk, ih]

theorem hashMapGet_chunksInsert_ne (m : List (Nat × List Nat)) (k v k' : Nat)
    (h : ¬ k' = k) :
    hashMapGet (chunksInsert m k v) k' = hashMapGet m k' := by
  have hne : ¬ k = k' := fun hh => h hh.symm
  induction m with
  | nil => simp [chunksInsert, hashMapGet, hne]
  | cons p rest ih =>
    obtain ⟨k0, vs⟩ := p
    by_cases hk : k0 = k
    · subst hk
      simp [chunksInsert, hashMapGet, hne]
    · by_cases hk' : k0 = k'
      · subst hk'
        simp [chunksInsert, hashMapGet, hk]
      · simp [chunksInsert, hashMapGet, hk, hk', ih]

theorem hashMapGet_foldInsert (ps : List (Nat × Nat)) :
    ∀ m k,
      hashMapGet (foldInsert ps m) k =
        match hashMapGet m k with
        | some vs0 =>
          some (vs0 ++ (ps.filter (fun p => p.1 == k)).map Prod.snd)
        | none =>
          match (ps.filter (fun p => p.1 == k)).map Prod.snd with
          | [] => none
          | vs => some vs := by
  induction ps with
  | nil =>
    intro m k
    cases h : hashMapGet m k <;> simp [foldInsert, h]
  | cons p ps ih =>
    obtain ⟨k0, v⟩ := p
    intro m k
    have hfold : foldInsert ((k0, v) :: ps) m =
        foldInsert ps (chunksInsert m k0 v) := rfl
    rw [hfold]
    by_cases hk : k0 = k
    · subst hk
      rw [ih, hashMapGet_chunksInsert_self]
      have hfil : ((k0, v) :: ps).filter (fun p => p.1 == k0) =
          (k0, v) :: ps.filter (fun p => p.1 == k0) := by
        simp [List.filter_cons]
      rw [hfil]
      cases h : hashMapGet m k0 with
      | none => simp [h]
      | some vs0 => simp [h]
    · rw [ih, hashMapGet_chunksInsert_ne m k0 v k (fun hh => hk hh.symm)]
      have hfil : ((k0, v) :: ps).filter (fun p => p.1 == k) =
          ps.filter (fun p => p.1 == k) := by
        simp [List.filter_cons, beq_eq_false_iff_ne.mpr hk]
      rw [hfil]

/-- C10: for every directory whose parseable segment filenames denote the
chunk-segment pairs {1-0, 1-1, 2-0} — in any scan order and with arbitrary
non-file or unparseable entries interleaved — collect_chunks yields the
grouping mapping chunk 1 to the segment set {0, 1} and chunk 2 to {0}, no
other chunk bound, with min_chunk_id 1 and max_chunk_id 2; and in general,
whenever collect_chunks succeeds on entries whose parsed chunk ids fit in a
u128, the returned min_chunk_id / max_chunk_id are the minimum and maximum
over all parsed chunk ids. -/
theorem collect_chunks_grouping :
    (∀ entries, List.Perm (parsedSegIds entries) [(1, 0), (1, 1), (2, 0)] →
      ∃ m, collect_chunks entries = Except.ok (m, 1, 2) ∧
        (∃ segs1, hashMapGet m 1 = some segs1 ∧ List.Perm segs1 [0, 1]) ∧
        hashMapGet m 2 = some [0] ∧
        ∀ k, ¬ k = 1 → ¬ k = 2 → hashMapGet m k = none) ∧
    ∀ entries m mn mx, (∀ c ∈ parsedChunkIds entries, c < 2 ^ 128) →
      collect_chunks entries = Except.ok (m, mn, mx) →
      (mn ∈ parsedChunkIds entries ∧ ∀ c ∈ parsedChunkIds entries, mn ≤ c) ∧
      (mx ∈ parsedChunkIds entries ∧ ∀ c ∈ parsedChunkIds entries, c ≤ mx) := by
  constructor
  · intro entries hperm
    have hex : ∃ e ∈ entries, e.is_file = true ∧ e.seg_id.isSome = true := by
      by_contra hno
      push_neg at hno
      have hempty : parsedSegIds entries = [] := by
        rw [parsedSegIds]
        apply List.filterMap_eq_nil_iff.mpr
        intro e he
        cases hf : e.is_file with
        | false => simp [hf]
        | true =>
          cases hs : e.seg_id with
          | none => simp [hf, hs]
          | some p => exact ((hno e he hf) (by rw [hs]; rfl)).elim
      have hlen := hperm.length_eq
      rw [hempty] at hlen
      simp at hlen
    have hne := collectLoop_parseable_ne_nil entries [] (2 ^ 128 - 1) 0 hex
    rcases hloop : collectLoop entries [] (2 ^ 128 - 1) 0 with ⟨m, mn, mx⟩
    have hok : collect_chunks entries = Except.ok (m, mn, mx) := by
      rw [← hloop]
      simp only [collect_chunks]
      rw [if_neg (by simpa [List.isEmpty_iff] using hne)]
    have hm : m = foldInsert (parsedSegIds entries) [] := by
      have hme := collectLoop_map_eq entries [] (2 ^ 128 - 1) 0
      rw [hloop] at hme
      exact hme
    have hids : List.Perm (parsedChunkIds entries) [1, 1, 2] := by
      rw [parsedChunkIds_eq_map]
      have hmp := hperm.map Prod.fst
      simpa using hmp
    obtain ⟨hmn0x, hmx0x⟩ := collectLoop_minmax entries [] (2 ^ 128 - 1) 0
    rw [hloop] at hmn0x hmx0x
    have hmn0 : mn = foldMin (parsedChunkIds entries) (2 ^ 128 - 1) := hmn0x
    have hmx0 : mx = foldMax (parsedChunkIds entries) 0 := hmx0x
    obtain ⟨ha1, ha2, ha3⟩ := foldMin_spec (parsedChunkIds entries) (2 ^ 128 - 1)
    obtain ⟨hb1, hb2, hb3⟩ := foldMax_spec (parsedChunkIds entries) 0
    have h1mem : (1 : Nat) ∈ parsedChunkIds entries := hids.mem_iff.mpr (by simp)
    have h2mem : (2 : Nat) ∈ parsedChunkIds entries := hids.mem_iff.mpr (by simp)
    have hmn1 : mn = 1 := by
      have hle := ha3 1 h1mem
      rcases ha2 with heq | hmem
      · rw [heq] at hle
        exact absurd hle (by decide)
      · have hin := hids.mem_iff.mp hmem
        simp only [List.mem_cons, List.not_mem_nil, or_false] at hin
        rw [hmn0]
        rcases hin with h | h | h
        · exact h
        · exact h
        · rw [h] at hle
          exact absurd hle (by decide)
    have hmx2 : mx = 2 := by
      have hle := hb3 2 h2mem
      rcases hb2 with heq | hmem
      · rw [heq] at hle
        exact absurd hle (by decide)
      · have hin := hids.mem_iff.mp hmem
        simp only [List.mem_cons, List.not_mem_nil, or_false] at hin
        rw [hmx0]
        rcases hin with h | h | h
        · rw [h] at hle
          exact absurd hle (by decide)
        · rw [h] at hle
          exact absurd hle (by decide)
        · exact h
    rw [hmn1, hmx2] at hok
    have hget : ∀ k, hashMapGet m k =
        match ((parsedSegIds entries).filter (fun p => p.1 == k)).map Prod.snd
          with
        | [] => none
        | vs => some vs := by
      intro k
      rw [hm, hashMapGet_foldInsert]
      rfl
    have hfil1 := hperm.filter (fun p => p.1 == 1)
    rw [show List.filter (fun p => p.1 == 1)
        ([(1, 0), (1, 1), (2, 0)] : List (Nat × Nat)) = [(1, 0), (1, 1)]
      from rfl] at hfil1
    have hv1 : List.Perm
        (((parsedSegIds entries).filter (fun p => p.1 == 1)).map Prod.snd)
        [0, 1] := by
      have hvm := hfil1.map Prod.snd
      simpa using hvm
    obtain ⟨c, cs, hcons⟩ : ∃ c cs,
        ((parsedSegIds entries).filter (fun p => p.1 == 1)).map Prod.snd =
          c :: cs := by
      cases hcase : ((parsedSegIds entries).filter
          (fun p => p.1 == 1)).map Prod.snd with
      | nil =>
        rw [hcase] at hv1
        have hlen := hv1.length_eq
        simp at hlen
      | cons c cs => exact ⟨c, cs, rfl⟩
    have hfil2 : ((parsedSegIds entries).filter
        (fun p => p.1 == 2)).map Prod.snd = [0] := by
      have hp2 := hperm.filter (fun p => p.1 == 2)
      rw [show List.filter (fun p => p.1 == 2)
          ([(1, 0), (1, 1), (2, 0)] : List (Nat × Nat)) = [(2, 0)]
        from rfl] at hp2
      rw [List.perm_singleton.mp hp2]
      rfl
    refine ⟨m, hok, ⟨c :: cs, ?_, hcons ▸ hv1⟩, ?_, ?_⟩
    · rw [hget 1, hcons]
    · rw [hget 2, hfil2]
    · intro k hk1 hk2
      have hfilk : (parsedSegIds entries).filter (fun p => p.1 == k) = [] := by
        have hpk := hperm.filter (fun p => p.1 == k)
        have hck : List.filter (fun p => p.1 == k)
            ([(1, 0), (1, 1), (2, 0)] : List (Nat × Nat)) = [] := by
          have he1 : ((1 : Nat) == k) = false :=
            beq_eq_false_iff_ne.mpr (fun h => hk1 h.symm)
          have he2 : ((2 : Nat) == k) = false :=
            beq_eq_false_iff_ne.mpr (fun h => hk2 h.symm)
          simp [List.filter, he1, he2]
        rw [hck] at hpk
        exact List.perm_nil.mp hpk
      rw [hget k, hfilk]
      rfl
  · intro entries m mn mx hbound hok
    have hpair : collectLoop entries [] (2 ^ 128 - 1) 0 = (m, mn, mx) ∧
        (collectLoop entries [] (2 ^ 128 - 1) 0).1 ≠ [] := by
      simp only [collect_chunks] at hok
      split at hok
      case isTrue h => simp at hok
      case isFalse h =>
        injection hok with h2
        refine ⟨h2, ?_⟩
        simpa [List.isEmpty_iff] using h
    have hne_ids : parsedChunkIds entries ≠ [] := by
      intro hids
      have hskip : ∀ e ∈ entries, ¬(e.is_file = true ∧ e.seg_id.isSome = true) := by
        intro e he hcontra
        have hfe : (if e.is_file then e.seg_id.map (fun p => p.1) else none)
            = none := by
          rw [parsedChunkIds] at hids
          exact (List.filterMap_eq_nil_iff.mp hids) e he
        rcases hcontra with ⟨hf, hs⟩
        rw [hf] at hfe
        simp at hfe
        rw [hfe] at hs
        simp at hs
      have hz := collectLoop_skip entries [] (2 ^ 128 - 1) 0 hskip
      rw [hz] at hpair
      exact hpair.2 rfl
    obtain ⟨c0, hc0⟩ : ∃ c, c ∈ parsedChunkIds entries :=
      List.exists_mem_of_ne_nil _ hne_ids
    obtain ⟨hmn0x, hmx0x⟩ := collectLoop_minmax entries [] (2 ^ 128 - 1) 0
    rw [hpair.1] at hmn0x hmx0x
    have hmn0 : mn = foldMin (parsedChunkIds entries) (2 ^ 128 - 1) := hmn0x
    have hmx0 : mx = foldMax (parsedChunkIds entries) 0 := hmx0x
    obtain ⟨ha1, ha2, ha3⟩ := foldMin_spec (parsedChunkIds entries) (2 ^ 128 - 1)
    obtain ⟨hb1, hb2, hb3⟩ := foldMax_spec (parsedChunkIds entries) 0
    constructor
    · constructor
      · rcases ha2 with heq | hmem
        · have hb := hbound c0 hc0
          have hle := ha3 c0 hc0
          have hc0eq : c0 = foldMin (parsedChunkIds entries) (2 ^ 128 - 1) := by
            omega
          rw [hmn0, ← hc0eq]
          exact hc0
        · rw [hmn0]
          exact hmem
      · intro c hc
        rw [hmn0]
        exact ha3 c hc
    · constructor
      · rcases hb2 with heq | hmem
        · have hle := hb3 c0 hc0
          have hc0eq : c0 = foldMax (parsedChunkIds entries) 0 := by omega
          rw [hmx0, ← hc0eq]
          exact hc0
        · rw [hmx0]
          exact hmem
      · intro c hc
        rw [hmx0]
        exact hb3 c hc

/-- Witness for collect_chunks_grouping: the example directory realises the
pair multiset {1-0, 1-1, 2-0} and so is grouped as claimed, and chunk id 1 is
its minimum. -/
theorem collect_chunks_grouping_witness :
    (∃ m, collect_chunks entriesW = Except.ok (m, 1, 2) ∧
      (∃ segs1, hashMapGet m 1 = some segs1 ∧ List.Perm segs1 [0, 1]) ∧
      hashMapGet m 2 = some [0] ∧
      ∀ k, ¬ k = 1 → ¬ k = 2 → hashMapGet m k = none) ∧
    (1 : Nat) ∈ parsedChunkIds entriesW :=
  ⟨collect_chunks_grouping.1 entriesW (by decide),
   ((collect_chunks_grouping.2 entriesW [(1, [0, 1]), (2, [0])] 1 2 (by decide)
     rfl).1).1⟩

/-- C7: the bulk index load is all-or-nothing: if any line fails to parse as
a TxOrderHashBlock (wrong field count, unparseable number, unparseable hash)
the entire load returns none and no partial index is produced; on success
the in-memory sequence holds exactly one record per line, in file order,
each the parse of its line. -/
theorem load_from_file_all_or_nothing (lines : List (List Char)) :
    ((∃ l ∈ lines, thbFromChars l = none) → load_from_file lines = none) ∧
    (∀ res, load_from_file lines = some res →
      res.length = lines.length ∧
      ∀ j, j < lines.length →
        thbFromChars (lines.getD j []) = some (res.getD j default)) := by
  induction lines with
  | nil =>
    constructor
    · intro h
      obtain ⟨l, hl, _⟩ := h
      exact absurd hl (List.not_mem_nil l)
    · intro res hres
      simp only [load_from_file, Option.some.injEq] at hres
      subst hres
      exact ⟨rfl, fun j hj => absurd hj (by simp)⟩
  | cons l ls ih =>
    constructor
    · intro h
      cases hpl : thbFromChars l with
      | none => simp [load_from_file, hpl]
      | some t =>
        obtain ⟨l', hl', hnone⟩ := h
        rcases List.mem_cons.mp hl' with rfl | hl2
        · rw [hpl] at hnone
          exact absurd hnone (by simp)
        · have hrec := ih.1 ⟨l', hl2, hnone⟩
          simp [load_from_file, hpl, hrec]
    · intro res hres
      cases hpl : thbFromChars l with
      | none =>
        simp only [load_from_file, hpl] at hres
        exact absurd hres (by simp)
      | some t =>
        cases hls : load_from_file ls with
        | none =>
          simp only [load_from_file, hpl, hls] at hres
          exact absurd hres (by simp)
        | some ts =>
          simp only [load_from_file, hpl, hls, Option.some.injEq] at hres
          subst hres
          obtain ⟨hlen, helts⟩ := ih.2 ts hls
          constructor
          · simp [hlen]
          · intro j hj
            cases j with
            | zero => simpa using hpl
            | succ j2 =>
              have hj2 : j2 < ls.length := by simpa using hj
              simpa using helts j2 hj2

/-- Witness for load_from_file_all_or_nothing: one malformed line aborts the
load. -/
theorem load_from_file_witness :
    load_from_file [['b', 'a', 'd']] = none :=
  (load_from_file_all_or_nothing [['b', 'a', 'd']]).1
    ⟨['b', 'a', 'd'], by simp, rfl⟩

theorem fleLoop_converge (recs : List TxOrderHashBlock) (exec : Nat → Bool)
    (k : Nat)
    (hexec : ∀ i, i < recs.length →
      exec ((recs.getD i default).tx_hash) = decide (i < k)) :
    ∀ d left right cnt, right - left ≤ d → left ≤ right →
      right ≤ recs.length - 1 → left ≤ k →
      (k ≤ right ∨ right = recs.length - 1) →
      left ≤ (fleLoop recs exec left right cnt).1 ∧
      (fleLoop recs exec left right cnt).1 ≤ right ∧
      (fleLoop recs exec left right cnt).1 ≤ k ∧
      (k ≤ (fleLoop recs exec left right cnt).1 ∨
        (fleLoop recs exec left right cnt).1 = recs.length - 1) := by
  intro d
  induction d with
  | zero =>
    intro left right cnt h1 h2 h3 h4 h5
    have hlr : ¬ left < right := by omega
    rw [fleLoop, dif_neg hlr]
    dsimp only
    omega
  | succ d ih =>
    intro left right cnt h1 h2 h3 h4 h5
    by_cases hlr : left < right
    · have hmidlt : (left + right) / 2 < recs.length := by omega
      cases hex : exec ((recs.getD ((left + right) / 2) default).tx_hash) with
      | true =>
        have hk : (left + right) / 2 < k := by
          have hd := hexec ((left + right) / 2) hmidlt
          rw [hex] at hd
          exact of_decide_eq_true hd.symm
        rw [fleLoop, dif_pos hlr]
        dsimp only
        rw [if_pos hex]
        have hrec := ih ((left + right) / 2 + 1) right (cnt + 1) (by omega)
          (by omega) h3 (by omega) h5
        exact ⟨by omega, hrec.2.1, hrec.2.2.1, hrec.2.2.2⟩
      | false =>
        have hk : k ≤ (left + right) / 2 := by
          have hd := hexec ((left + right) / 2) hmidlt
          rw [hex] at hd
          have := of_decide_eq_false hd.symm
          omega
        rw [fleLoop, dif_pos hlr]
        dsimp only
        rw [if_neg (by rw [hex]; exact Bool.false_ne_true)]
        have hrec := ih left ((left + right) / 2) (cnt + 1) (by omega)
          (by omega) (by omega) h4 (Or.inl hk)
        exact ⟨hrec.1, by omega, hrec.2.2.1, hrec.2.2.2⟩
    · rw [fleLoop, dif_neg hlr]
      dsimp only
      omega

/-- C1: for every index of N ≥ 1 records and every execution store under
which, for some boundary k ≤ N, exactly the records at positions [0, k) are
executed and those at [k, N) are not, find_last_executed returns the record
at position k - 1 when k > 0 and none when k = 0. -/
theorem find_last_executed_boundary (recs : List TxOrderHashBlock)
    (exec : Nat → Bool) (k : Nat) (hne : recs ≠ []) (hk : k ≤ recs.length)
    (hexec : ∀ i, i < recs.length →
      exec ((recs.getD i default).tx_hash) = decide (i < k)) :
    (find_last_executed recs exec).1 =
      if k = 0 then none else some (recs.getD (k - 1) default) := by
  have hN : 1 ≤ recs.length := List.length_pos.mpr hne
  obtain ⟨r, cnt, hfl⟩ : ∃ r cnt,
      fleLoop recs exec 0 (recs.length - 1) 0 = (r, cnt) := ⟨_, _, rfl⟩
  have hinv := fleLoop_converge recs exec k hexec (recs.length - 1) 0
    (recs.length - 1) 0 (by omega) (by omega) (le_refl _) (by omega)
    (Or.inr rfl)
  rw [hfl] at hinv
  have hr2 : r ≤ recs.length - 1 := hinv.2.1
  have hr3 : r ≤ k := hinv.2.2.1
  have hr4 : k ≤ r ∨ r = recs.length - 1 := hinv.2.2.2
  have hrN : r < recs.length := by omega
  have hexr := hexec r hrN
  have hemp : recs.isEmpty = false := by
    cases recs with
    | nil => exact absurd rfl hne
    | cons a l => rfl
  by_cases hk0 : k = 0
  · have hr0 : r = 0 := by omega
    have hex : exec ((recs.getD r default).tx_hash) = false := by
      rw [hexr]
      simp only [decide_eq_false_iff_not]
      omega
    simp only [find_last_executed, hemp, Bool.false_eq_true, if_false, hfl]
    rw [if_pos hk0, hex, hr0]
    simp
  · by_cases hrk : r = k
    · have hex : exec ((recs.getD r default).tx_hash) = false := by
        rw [hexr]
        simp only [decide_eq_false_iff_not]
        omega
      have hbeq : (r == 0) = false := by
        simp only [beq_eq_false_iff_ne, ne_eq]
        omega
      simp only [find_last_executed, hemp, Bool.false_eq_true, if_false, hfl]
      rw [if_neg hk0, hex, hbeq]
      simp only [Bool.not_false, Bool.false_and, Bool.false_eq_true, if_false,
        Bool.not_false, if_true]
      rw [hrk]
    · have hrltk : r < k := by omega
      have hrn1 : r = recs.length - 1 := by
        rcases hr4 with h | h
        · omega
        · exact h
      have hex : exec ((recs.getD r default).tx_hash) = true := by
        rw [hexr]
        simp only [decide_eq_true_eq]
        omega
      simp only [find_last_executed, hemp, Bool.false_eq_true, if_false, hfl]
      rw [if_neg hk0, hex]
      simp only [Bool.not_true, Bool.and_false, Bool.false_eq_true, if_false]
      rw [show k - 1 = r by omega]

/-- Witness for find_last_executed_boundary: three records, the first two
executed (k = 2), so the record at position 1 is returned. -/
theorem find_last_executed_boundary_witness :
    (find_last_executed recsW (fun h => h == 10 || h == 11)).1 =
      some (recsW.getD (2 - 1) default) := by
  have hres := find_last_executed_boundary recsW (fun h => h == 10 || h == 11)
    2 (by decide) (by decide) (by decide)
  simpa using hres

theorem bsLoop_found (recs : List TxOrderHashBlock) (t0 key : Nat)
    (hgap : ∀ j, j < recs.length → (recs.getD j default).tx_order = t0 + j)
    (ht0 : t0 ≤ key) :
    ∀ d left right, right - left ≤ d → left ≤ key - t0 → key - t0 < right →
      right ≤ recs.length →
      bsLoop recs key left right = .ok (key - t0) := by
  intro d
  induction d with
  | zero =>
    intro left right h1 h2 h3 h4
    exact absurd rfl (by omega : left ≠ left)
  | succ d ih =>
    intro left right h1 h2 h3 h4
    have hlr : left < right := by omega
    rw [bsLoop, dif_pos hlr]
    dsimp only
    have hmlt : left + (right - left) / 2 < recs.length := by omega
    rw [hgap (left + (right - left) / 2) hmlt]
    rcases Nat.lt_trichotomy (left + (right - left) / 2) (key - t0) with
      hc | hc | hc
    · rw [if_pos (by omega)]
      exact ih (left + (right - left) / 2 + 1) right (by omega) (by omega)
        h3 h4
    · rw [if_neg (by omega), if_neg (by omega), hc]
    · rw [if_neg (by omega), if_pos (by omega)]
      exact ih left (left + (right - left) / 2) (by omega) h2 (by omega)
        (by omega)

/-- C2: on a gapless ascending index (the record at position j has tx_order
t0 + j) with both endpoints present and start ≤ end, slice returns Ok of
exactly the end - start + 1 records with tx_order from start to end
inclusive, in order; the end position is start_idx + (end - start). -/
theorem slice_gapless (recs : List TxOrderHashBlock) (t0 s e : Nat)
    (hgap : ∀ j, j < recs.length → (recs.getD j default).tx_order = t0 + j)
    (hs : t0 ≤ s) (hse : s ≤ e) (he : e < t0 + recs.length) :
    slice recs s e = SliceResult.ok ((recs.drop (s - t0)).take (e - s + 1)) ∧
    ((recs.drop (s - t0)).take (e - s + 1)).length = e - s + 1 ∧
    ∀ j, j < e - s + 1 →
      (((recs.drop (s - t0)).take (e - s + 1)).getD j default).tx_order =
        s + j := by
  have hfound : binary_search_by recs s = .ok (s - t0) := by
    rw [binary_search_by]
    exact bsLoop_found recs t0 s hgap hs recs.length 0 recs.length (by omega)
      (by omega) (by omega) (le_refl _)
  refine ⟨?_, ?_, ?_⟩
  · simp only [slice, hfound]
    rw [if_neg (by omega)]
    rw [if_pos (by omega)]
    congr 1
    congr 1
    omega
  · rw [List.length_take, List.length_drop]
    omega
  · intro j hj
    have hjlen : j < ((recs.drop (s - t0)).take (e - s + 1)).length := by
      rw [List.length_take, List.length_drop]
      omega
    rw [List.getD_eq_getElem _ default hjlen, List.getElem_take,
      List.getElem_drop]
    have hidx : s - t0 + j < recs.length := by omega
    have hval : (recs.getD (s - t0 + j) default).tx_order = t0 + (s - t0 + j) :=
      hgap (s - t0 + j) hidx
    rw [List.getD_eq_getElem recs default hidx] at hval
    rw [hval]
    omega

/-- Witness for slice_gapless: recsW is gapless from 0, slice (1, 2) is the
two-record tail. -/
theorem slice_gapless_witness :
    slice recsW 1 2 = SliceResult.ok ((recsW.drop (1 - 0)).take (2 - 1 + 1)) :=
  (slice_gapless recsW 0 1 2 (by decide) (by decide) (by decide)
    (by decide)).1

theorem digitChar_toNat (d : Nat) (h : d < 10) :
    (digitChar d).toNat = 48 + d := by
  interval_cases d <;> decide

theorem decDigitVal_digitChar (d : Nat) (h : d < 10) :
    decDigitVal (digitChar d) = some d := by
  interval_cases d <;> decide

theorem hexDigitVal_hexDigitChar (d : Nat) (h : d < 16) :
    hexDigitVal (hexDigitChar d) = some d := by
  interval_cases d <;> decide

theorem hexDigitChar_toNat (d : Nat) (h : d < 16) :
    (hexDigitChar d).toNat = if d < 10 then 48 + d else 87 + d := by
  interval_cases d <;> decide

theorem parseDecAux_append (xs ys : List Char) :
    ∀ a, parseDecAux (xs ++ ys) a =
      match parseDecAux xs a with
      | none => none
      | some b => parseDecAux ys b := by
  induction xs with
  | nil => intro a; rfl
  | cons c cs ih =>
    intro a
    cases hd : decDigitVal c with
    | none => simp [parseDecAux, hd]
    | some d =>
      simp only [List.cons_append, parseDecAux, hd]
      exact ih (a * 10 + d)

theorem parseHexAux_append (xs ys : List Char) :
    ∀ a, parseHexAux (xs ++ ys) a =
      match parseHexAux xs a with
      | none => none
      | some b => parseHexAux ys b := by
  induction xs with
  | nil => intro a; rfl
  | cons c cs ih =>
    intro a
    cases hd : hexDigitVal c with
    | none => simp [parseHexAux, hd]
    | some d =>
      simp only [List.cons_append, parseHexAux, hd]
      exact ih (a * 16 + d)

theorem parseDecAux_natToDec (n : Nat) :
    ∀ a, parseDecAux (natToDec n) a =
      some (a * 10 ^ (natToDec n).length + n) := by
  induction n using Nat.strong_induction_on with
  | _ n ih =>
    intro a
    by_cases h : n < 10
    · rw [natToDec, dif_pos h]
      simp only [parseDecAux, decDigitVal_digitChar n h, List.length_cons,
        List.length_nil, pow_one, pow_zero]
      rfl
    · rw [natToDec, dif_neg h]
      rw [parseDecAux_append]
      rw [ih (n / 10) (by omega) a]
      have hmod : n % 10 < 10 := Nat.mod_lt n (by omega)
      simp only [parseDecAux, decDigitVal_digitChar (n % 10) hmod,
        List.length_append, List.length_cons, List.length_nil]
      congr 1
      rw [pow_succ, ← mul_assoc]
      generalize a * 10 ^ (natToDec (n / 10)).length = t
      omega

theorem natToDec_digits (n : Nat) :
    (∃ c cs, natToDec n = c :: cs) ∧
    ∀ c ∈ natToDec n, 48 ≤ c.toNat ∧ c.toNat ≤ 57 := by
  induction n using Nat.strong_induction_on with
  | _ n ih =>
    by_cases h : n < 10
    · rw [natToDec, dif_pos h]
      refine ⟨⟨digitChar n, [], rfl⟩, ?_⟩
      intro c hc
      have hc2 : c = digitChar n := by simpa using hc
      subst hc2
      have := digitChar_toNat n h
      omega
    · rw [natToDec, dif_neg h]
      obtain ⟨⟨c0, cs0, hcons⟩, hall⟩ := ih (n / 10) (by omega)
      constructor
      · rw [hcons]
        exact ⟨c0, cs0 ++ [digitChar (n % 10)], rfl⟩
      · intro c hc
        rcases List.mem_append.mp hc with hc1 | hc2
        · exact hall c hc1
        · have hc3 : c = digitChar (n % 10) := by simpa using hc2
          subst hc3
          have := digitChar_toNat (n % 10) (Nat.mod_lt n (by omega))
          omega

theorem natToHex_length (w : Nat) : ∀ n, (natToHex w n).length = w := by
  induction w with
  | zero => intro n; rfl
  | succ w ih =>
    intro n
    simp [natToHex, ih]

theorem natToHex_digits (w : Nat) : ∀ n, ∀ c ∈ natToHex w n,
    (48 ≤ c.toNat ∧ c.toNat ≤ 57) ∨ (97 ≤ c.toNat ∧ c.toNat ≤ 102) := by
  induction w with
  | zero =>
    intro n c hc
    exact absurd hc (List.not_mem_nil c)
  | succ w ih =>
    intro n c hc
    simp only [natToHex] at hc
    rcases List.mem_append.mp hc with h1 | h2
    · exact ih (n / 16) c h1
    · have hc3 : c = hexDigitChar (n % 16) := by simpa using h2
      subst hc3
      have h16 : n % 16 < 16 := Nat.mod_lt n (by omega)
      have := hexDigitChar_toNat (n % 16) h16
      split at this <;> omega

theorem parseHexAux_natToHex (w : Nat) :
    ∀ n a, n < 16 ^ w → parseHexAux (natToHex w n) a = some (a * 16 ^ w + n) := by
  induction w with
  | zero =>
    intro n a hn
    rw [pow_zero] at hn
    have hn0 : n = 0 := by omega
    subst hn0
    simp [natToHex, parseHexAux]
  | succ w ih =>
    intro n a hn
    simp only [natToHex]
    rw [parseHexAux_append]
    have hdiv : n / 16 < 16 ^ w := by
      rw [Nat.div_lt_iff_lt_mul (by omega)]
      rw [pow_succ] at hn
      exact hn
    rw [ih (n / 16) a hdiv]
    have hmod : n % 16 < 16 := Nat.mod_lt n (by omega)
    simp only [parseHexAux, hexDigitVal_hexDigitChar (n % 16) hmod]
    congr 1
    rw [pow_succ, ← mul_assoc]
    generalize a * 16 ^ w = t
    omega

theorem h256_roundtrip (h : Nat) (hh : h < 2 ^ 256) :
    h256FromChars (h256ToChars h) = some h := by
  have h16 : h < 16 ^ 64 := by
    have : (16 : Nat) ^ 64 = 2 ^ 256 := by norm_num
    omega
  have hb : h256FromChars (h256ToChars h) =
      if (natToHex 64 h).length = 64 then parseHexAux (natToHex 64 h) 0
      else none := rfl
  rw [hb, if_pos (natToHex_length 64 h), parseHexAux_natToHex 64 h 0 h16]
  simp

theorem parseUInt_natToDec (w n : Nat) (hn : n < 2 ^ w) :
    parseUInt w (natToDec n) = some n := by
  obtain ⟨⟨c0, cs0, hcons⟩, hdig⟩ := natToDec_digits n
  have hc0 := hdig c0 (by rw [hcons]; exact List.mem_cons_self c0 cs0)
  have hplus : ¬ c0 = '+' := by
    intro hc
    rw [hc] at hc0
    exact absurd hc0 (by decide)
  have hb := parseDecAux_natToDec n 0
  rw [zero_mul, zero_add] at hb
  rw [parseUInt.eq_def, hcons]
  dsimp only
  rw [if_neg hplus]
  rw [show parseDecAux (c0 :: cs0) 0 = some n from hcons ▸ hb]
  dsimp only
  rw [if_pos hn]

theorem splitCols_no_colon (xs : List Char) (h : ∀ c ∈ xs, c ≠ ':') :
    splitCols xs = [xs] := by
  induction xs with
  | nil => rfl
  | cons c cs ih =>
    have hc := h c (List.mem_cons_self c cs)
    rw [splitCols, if_neg hc, ih (fun x hx => h x (List.mem_cons_of_mem c hx))]

theorem splitCols_append (xs ys : List Char) (h : ∀ c ∈ xs, c ≠ ':') :
    splitCols (xs ++ ':' :: ys) = xs :: splitCols ys := by
  induction xs with
  | nil =>
    simp [splitCols]
  | cons c cs ih =>
    have hc := h c (List.mem_cons_self c cs)
    rw [List.cons_append, splitCols, if_neg hc,
      ih (fun x hx => h x (List.mem_cons_of_mem c hx))]

/-- C5: for every valid TxOrderHashBlock (fields within their u64 / 256-bit /
u128 ranges), formatting with Display and parsing the result back with
FromStr succeeds and returns an equal value — tx_order, tx_hash and
block_number are all preserved. -/
theorem display_fromstr_roundtrip (t : TxOrderHashBlock)
    (h1 : t.tx_order < 2 ^ 64) (h2 : t.tx_hash < 2 ^ 256)
    (h3 : t.block_number < 2 ^ 128) :
    thbFromChars (thbToChars t) = some t := by
  have hno1 : ∀ c ∈ natToDec t.tx_order, c ≠ ':' := by
    intro c hc hceq
    have hb := (natToDec_digits t.tx_order).2 c hc
    rw [hceq] at hb
    exact absurd hb (by decide)
  have hno2 : ∀ c ∈ natToDec t.block_number, c ≠ ':' := by
    intro c hc hceq
    have hb := (natToDec_digits t.block_number).2 c hc
    rw [hceq] at hb
    exact absurd hb (by decide)
  have hnoh : ∀ c ∈ h256ToChars t.tx_hash, c ≠ ':' := by
    intro c hc hceq
    subst hceq
    rw [h256ToChars] at hc
    rcases List.mem_cons.mp hc with h0 | hc1
    · exact absurd h0 (by decide)
    rcases List.mem_cons.mp hc1 with h0 | hc2
    · exact absurd h0 (by decide)
    have hb := natToHex_digits 64 t.tx_hash _ hc2
    rcases hb with hb | hb <;> revert hb <;> decide
  have hsplit : splitCols (thbToChars t) =
      [natToDec t.tx_order, h256ToChars t.tx_hash, natToDec t.block_number] := by
    rw [thbToChars, splitCols_append _ _ hno1, splitCols_append _ _ hnoh,
      splitCols_no_colon _ hno2]
  rw [thbFromChars, hsplit]
  dsimp only
  rw [parseUInt_natToDec 64 t.tx_order h1, h256_roundtrip t.tx_hash h2,
    parseUInt_natToDec 128 t.block_number h3]

/-- Witness for display_fromstr_roundtrip at a concrete record. -/
theorem display_fromstr_roundtrip_witness :
    thbFromChars (thbToChars ⟨42, 255, 7⟩) = some ⟨42, 255, 7⟩ :=
  display_fromstr_roundtrip ⟨42, 255, 7⟩ (by decide) (by decide) (by decide)

end RoochDA
